import Mathlib

/-!
# Verification of the gangplank stage planner, stage executor and cluster runner

This development embeds the stage model of `spec/stages.go` (the shorthand
planner `addShorthandToStage` / `GenerateStages`, the stage executor
`Stage.Execute`, `Stage.DeepCopy`) and the pod watch loop of
`ocp/cosa-pod.go` (`clusterRunner`) as executable Lean definitions, and
proves or refutes the specification's claims about them.

Modelling conventions:
* The artifact catalogue (`cosa.CanArtifact`) is an external collaborator and
  is modelled as an oracle `can : String → Bool`.
* `log.Fatalf` terminates the Go process; functions that can reach it return
  `Option` and yield `none` on that path.
* Go map iteration order is unspecified; every place the source ranges over a
  map takes the iteration order as an explicit parameter (a permutation of
  the keys, or of the script indices).
* The prune loop of `addShorthandToStage` ranges over
  `stage.RequireArtifacts` while `remove` compacts the shared backing array
  in place through the alias `realRequires`.  The backing array is modelled
  as the pair `(rr, stale)`: `rr` is the live slice `realRequires`, `stale`
  the cells past its length that still hold shifted-out values.  Go's
  `append(slice[:x], slice[x+1:]...)` deletes the first occurrence from the
  live slice and leaves the previous last element duplicated in the first
  stale cell, which is exactly `(rr.erase key, rr.getLastD "" :: stale)`.
-/

/-- The `Stage` record of `spec/stages.go` (fields relevant to the claims;
`ExecutionOrder` is modelled as `Nat`, the source only ever stores
0, 1, 2, 3 and 999). -/
structure Stage where
  id : String := ""
  description : String := ""
  concurrentExecution : Bool := false
  directExec : Bool := false
  notBlocking : Bool := false
  requireArtifacts : List String := []
  buildArtifacts : List String := []
  commands : List String := []
  prepCommands : List String := []
  postCommands : List String := []
  postAlways : Bool := false
  executionOrder : Nat := 0
deriving DecidableEq

/-- The fields of `JobSpec` the planner touches: the stage list,
`DelayedMetaMerge` and `Job.StrictMode`. -/
structure JobSpec where
  stages : List Stage := []
  delayedMetaMerge : Bool := false
  strictMode : Bool := false
deriving DecidableEq

/-- The Go helper `unique` of `addShorthandToStage`: first-occurrence
deduplication, implemented with a seen accumulator exactly like the source's
`keys` map. -/
def uniqueGo : List String → List String → List String
  | [], _ => []
  | x :: xs, seen => if x ∈ seen then uniqueGo xs seen else x :: uniqueGo xs (x :: seen)

/-- `unique strSlice` of the source. -/
def unique (l : List String) : List String := uniqueGo l []

/-- The Go helper `remove`: delete the first matching item from a slice,
returning the shortened slice and whether a match was found. -/
def removeFirst : List String → String → List String × Bool
  | [], _ => ([], false)
  | x :: xs, key =>
    if x = key then (xs, true)
    else
      let r := removeFirst xs key
      (x :: r.1, r.2)

/-- `quickStage` inside `addShorthandToStage`.  `artifact` is the argument of
the enclosing call: the source's default branch consults
`cosa.CanArtifact(artifact)` and builds `[]string{artifact}` (not `noun`),
which this definition reproduces.  `none` models the `log.Fatalf` exit. -/
def quickStage (can : String → Bool) (artifact noun : String) : Option Stage :=
  if noun = "base" then
    some { executionOrder := 1, buildArtifacts := ["base"], requireArtifacts := ["base"] }
  else if noun = "finalize" then
    some { buildArtifacts := ["finalize"], executionOrder := 999 }
  else if noun = "live-iso" then
    some { executionOrder := 2, buildArtifacts := ["live-iso"],
           requireArtifacts := ["qemu", "metal", "metal4k"] }
  else if noun = "metal" then
    some { executionOrder := 2, buildArtifacts := ["metal"] }
  else if noun = "metal4k" then
    some { executionOrder := 2, buildArtifacts := ["metal4k"] }
  else if can artifact then
    some { executionOrder := 3, buildArtifacts := [artifact], requireArtifacts := ["qemu"] }
  else none

/-- One insertion into the `artifactOrder` map:
`artifactOrder[k] = append(artifactOrder[k], v)`.  The map is modelled as an
association list in key insertion order. -/
def bucketAdd : List (Nat × List String) → Nat → String → List (Nat × List String)
  | [], k, v => [(k, [v])]
  | (k', vs) :: rest, k, v =>
    if k' = k then (k', vs ++ [v]) :: rest else (k', vs) :: bucketAdd rest k v

/-- Map lookup with the empty list as default. -/
def lookupD (bs : List (Nat × List String)) (k : Nat) : List String :=
  match bs with
  | [] => []
  | (k', vs) :: rest => if k' = k then vs else lookupD rest k

/-- Build `artifactOrder` by classifying every current build artifact with
`quickStage` (note: the default branch still consults `can artifact`). -/
def mkBuckets (can : String → Bool) (artifact : String) :
    List String → List (Nat × List String) → Option (List (Nat × List String))
  | [], acc => some acc
  | v :: vs, acc =>
    match quickStage can artifact v with
    | none => none
    | some f => mkBuckets can artifact vs (bucketAdd acc f.executionOrder v)

/-- State of the prune loop's backing array: the live slice `realRequires`
and the stale cells beyond its length. -/
abbrev PruneSt := List String × List String

/-- One `remove(realRequires, ra)` call seen through the shared backing
array: erase the first occurrence from the live slice; the old last live
cell keeps its value and becomes stale. -/
def removeRA (st : PruneSt) (key : String) : PruneSt :=
  if key ∈ st.1 then (st.1.erase key, st.1.getLastD "" :: st.2) else st

/-- One step of the inner `for _, ra := range stage.RequireArtifacts` loop:
the range reads cell `i` of the backing array as it is now. -/
def scanStep (ba : String) (st : PruneSt) (i : Nat) : PruneSt :=
  if (st.1 ++ st.2).getD i "" = ba then removeRA st ba else st

/-- The inner loop: indices `0 .. L-1` where `L` is the length
`stage.RequireArtifacts` had when the loop started. -/
def innerScan (L : Nat) (ba : String) (st : PruneSt) : PruneSt :=
  (List.range L).foldl (scanStep ba) st

/-- The nested prune loop over `stage.BuildArtifacts`. -/
def pruneLoop (bas : List String) (ra : List String) : PruneSt :=
  bas.foldl (fun st ba => innerScan ra.length ba st) (ra, [])

/-- Decimal rendering of the execution order for `ID` / `Description`. -/
def natToStr (n : Nat) : String := toString n

/-- `strings.Join(xs, ",")`. -/
def joinComma : List String → String
  | [] => ""
  | [x] => x
  | x :: xs => x ++ "," ++ joinComma xs

/-- `addShorthandToStage(artifact, stage)`.  `ord` is the iteration order of
the `artifactOrder` map: given the keys in insertion order it yields the
order Go's `range` visits them in.  `none` models the `log.Fatalf` exit. -/
def addShorthandToStage (ord : List Nat → List Nat) (can : String → Bool)
    (artifact : String) (stage : Stage) : Option Stage :=
  match quickStage can artifact artifact with
  | none => none
  | some working =>
    let ba1 := stage.buildArtifacts ++ working.buildArtifacts
    let ra1 := stage.requireArtifacts ++ working.requireArtifacts
    let order1 :=
      if working.executionOrder < stage.executionOrder ∨ stage.executionOrder = 0 then
        working.executionOrder
      else stage.executionOrder
    let id1 := "Generated Stage in Execution Order " ++ natToStr order1
    let desc1 := "Stage " ++ natToStr order1 ++ " execution for " ++ joinComma ba1
    match mkBuckets can artifact ba1 [] with
    | none => none
    | some bs =>
      let newOrder := (ord (bs.map Prod.fst)).foldl (fun acc k => acc ++ lookupD bs k) []
      let ba2 := unique newOrder
      let st := pruneLoop ba2 ra1
      let rr := st.1
      let afterBase := removeFirst rr "base"
      let rr2 :=
        if afterBase.2 then
          ((removeFirst (removeFirst afterBase.1 "ostree").1 "qemu").1)
        else afterBase.1
      some { stage with
              id := id1
              description := desc1
              executionOrder := order1
              buildArtifacts := ba2
              requireArtifacts := unique rr2 }

/-- `strings.Split(k, "+")` on the character list (the separator is the
single character `+`, as in the source). -/
def splitPlusAux : List Char → List Char → List (List Char)
  | [], acc => [acc.reverse]
  | c :: cs, acc =>
    if c = '+' then acc.reverse :: splitPlusAux cs [] else splitPlusAux cs (c :: acc)

/-- Split a shorthand group on `+`. -/
def splitPlus (g : String) : List String :=
  (splitPlusAux g.toList []).map (fun cs => String.mk cs)

/-- Fold one `+`-joined group into a fresh Stage, as the inner loop of
`GenerateStages` does. -/
def buildOneStage (ord : List Nat → List Nat) (can : String → Bool) (g : String) :
    Option Stage :=
  (splitPlus g).foldlM (fun st k => addShorthandToStage ord can k st) ({} : Stage)

/-- Build one Stage per shorthand group, in order; a `log.Fatalf` exit
anywhere aborts the whole run. -/
def mapStages (f : String → Option Stage) : List String → Option (List Stage)
  | [] => some []
  | g :: gs =>
    match f g with
    | none => none
    | some st =>
      match mapStages f gs with
      | none => none
      | some rest => some (st :: rest)

/-- `JobSpec.GenerateStages(fromNames)`: an empty list returns immediately;
otherwise `DelayedMetaMerge` and `StrictMode` are set and one Stage per
group is appended. -/
def GenerateStages (ord : List Nat → List Nat) (can : String → Bool)
    (js : JobSpec) (fromNames : List String) : Option JobSpec :=
  if fromNames = [] then some js
  else
    match mapStages (buildOneStage ord can) fromNames with
    | none => none
    | some newStages =>
      some { js with
              delayedMetaMerge := true
              strictMode := true
              stages := js.stages ++ newStages }

/-- Iteration order oracle: keys in insertion order (one legal Go map
iteration). -/
def ordId : List Nat → List Nat := fun ks => ks

/-- Iteration order oracle: keys in reverse insertion order (another legal
Go map iteration). -/
def ordRev : List Nat → List Nat := fun ks => ks.reverse

-- Sanity checks against a hand-run of the Go source.
example : (buildOneStage ordId (fun _ => false) "base").map
    (fun st => (st.executionOrder, st.buildArtifacts, st.requireArtifacts)) =
    some (1, ["base"], []) := by decide

example : (buildOneStage ordId (fun _ => false) "live-iso").map
    (fun st => (st.executionOrder, st.buildArtifacts, st.requireArtifacts)) =
    some (2, ["live-iso"], ["qemu", "metal", "metal4k"]) := by decide

/-! ## The stage executor (`Stage.Execute`) -/

/-- The scripts `Stage.Execute` materializes and hands to the injected
`RendererExecuter` capability: `prep.sh`, `post.sh`, `script-<i>.sh`. -/
inductive Script where
  | prep
  | post
  | main (i : Nat)
deriving DecidableEq

/-- The distinct error outcomes of `Stage.Execute`. -/
inductive ExecErr where
  | unknownArtifact
  | noCommands
  | tmpdirFailed
  | prepWriteErr
  | postWriteErr
  | prepFailed (e : String)
  | rendererErr (e : String)
deriving DecidableEq

/-- `defaultBaseCommand`. -/
def defaultBaseCommand : String := "cosa fetch; cosa build;"

/-- `defaultBaseDelayMergeCommand`. -/
def defaultBaseDelayMergeCommand : String := "cosa fetch; cosa build --delay-meta-merge;"

/-- `defaultFinalizeCommand`. -/
def defaultFinalizeCommand : String := "cosa meta --finalize;"

/-- ASCII lowercasing, the effect of `strings.ToLower` on the artifact
names involved. -/
def toLowerAscii (s : String) : String :=
  String.mk (s.toList.map (fun c => if 'A' ≤ c ∧ c ≤ 'Z' then Char.ofNat (c.toNat + 32) else c))

/-- `cosaBuildCmd(b, js)`: the command string for one artifact shorthand
(the source returns a one-element slice, joined with newlines by
`getCommands`).  `none` models the "not a known buildable artifact" error. -/
def cosaBuildCmd (can : String → Bool) (dmm : Bool) (b : String) : Option String :=
  if toLowerAscii b = "base" then
    some (if dmm then defaultBaseDelayMergeCommand else defaultBaseCommand)
  else if toLowerAscii b = "finalize" then some defaultFinalizeCommand
  else if can b then some ("cosa buildextend-" ++ b)
  else none

/-- `Stage.getCommands`: one command per build artifact, then the user
commands, in that order. -/
def getCommands (can : String → Bool) (dmm : Bool) (s : Stage) : Option (List String) :=
  match s.buildArtifacts.mapM (cosaBuildCmd can dmm) with
  | none => none
  | some artifactCmds => some (artifactCmds ++ s.commands)

/-- The environment a single `Stage.Execute` call runs in: the catalogue and
job-spec flag consumed by `getCommands`, the injected renderer capability
(indexed by which script file it is invoked on), oracles for the I/O
failures of the scratch directory and the script writes, and the Go map
iteration order over the `scripts` map (`serialOrder` for the serial branch;
`concOrder` is the order concurrent tasks publish their results in, which is
also the order the trace records their invocations in). -/
structure ExecEnv where
  can : String → Bool := fun _ => false
  dmm : Bool := false
  renderer : Script → Option String
  tmpdirFail : Bool := false
  prepWriteFail : Bool := false
  postWriteFail : Bool := false
  scriptWriteFail : Nat → Bool := fun _ => false
  serialOrder : List Nat := []
  concOrder : List Nat := []

/-- Append the deferred `post.sh` invocation to a trace when `PostAlways`
registered it. -/
def withPost (postAlways : Bool) (tr : List Script) : List Script :=
  if postAlways then tr ++ [Script.post] else tr

/-- The serial branch: invoke each script in map-iteration order, stopping
at the first error. Returns the first error and the invoked indices. -/
def runSerial (renderer : Script → Option String) : List Nat → Option String × List Nat
  | [] => (none, [])
  | i :: rest =>
    match renderer (Script.main i) with
    | some e => (some e, [i])
    | none =>
      let r := runSerial renderer rest
      (r.1, i :: r.2)

/-- How many results the concurrent drain loop
`for x := 0; x <= len(errors); x++` actually receives: `len(errors)` is the
current number of buffered results, so a receive happens for
`x = 0 .. n/2` only. -/
def drainCount (n : Nat) : Nat := n / 2 + 1

/-- Shared tail of `Stage.Execute`: main execution succeeded, so run
`post.sh` — deferred and ignored under `PostAlways`, otherwise invoked here
with its result returned. -/
def finishMain (s : Stage) (env : ExecEnv) (tr : List Script) : Option ExecErr × List Script :=
  if s.postAlways then (none, tr ++ [Script.post])
  else
    match env.renderer Script.post with
    | some e => (some (ExecErr.rendererErr e), tr ++ [Script.post])
    | none => (none, tr ++ [Script.post])

/-- `Stage.Execute(ctx, rd, envVars)` for non-nil `ctx` and `rd`, returning
the error result together with the sequence of renderer invocations.
Mirrors the source: synthesize commands, fail on an empty list, make the
scratch directory, write and run `prep.sh`, write `post.sh` (deferring it
when `PostAlways`), write `script-<i>.sh` for every command — returning nil
on a write error — then run the main scripts serially or concurrently and
apply the post policy. -/
def Stage.Execute (s : Stage) (env : ExecEnv) : Option ExecErr × List Script :=
  match getCommands env.can env.dmm s with
  | none => (some ExecErr.unknownArtifact, [])
  | some cmds =>
    if cmds.length = 0 then (some ExecErr.noCommands, [])
    else if env.tmpdirFail then (some ExecErr.tmpdirFailed, [])
    else if env.prepWriteFail then (some ExecErr.prepWriteErr, [])
    else
      match env.renderer Script.prep with
      | some e => (some (ExecErr.prepFailed e), [Script.prep])
      | none =>
        if env.postWriteFail then (some ExecErr.postWriteErr, [Script.prep])
        else
          let n := cmds.length
          if (List.range n).any env.scriptWriteFail then
            (none, withPost s.postAlways [Script.prep])
          else if !s.concurrentExecution then
            let r := runSerial env.renderer env.serialOrder
            match r.1 with
            | some e =>
              (some (ExecErr.rendererErr e),
               withPost s.postAlways (Script.prep :: r.2.map Script.main))
            | none => finishMain s env (Script.prep :: r.2.map Script.main)
          else
            let results := env.concOrder.map (fun i => env.renderer (Script.main i))
            let drained := results.take (drainCount n)
            let tr := Script.prep :: env.concOrder.map Script.main
            match (drained.filterMap (fun x => x)).getLast? with
            | some e => (some (ExecErr.rendererErr e), withPost s.postAlways tr)
            | none => finishMain s env tr

/-! ## The cluster runner (`clusterRunner` watch loop of `ocp/cosa-pod.go`) -/

/-- Kubernetes pod phases the watch loop switches on. -/
inductive PodPhase where
  | pending
  | running
  | succeeded
  | failed
  | unknownPhase
deriving DecidableEq

/-- One wake-up of the `select` in the watch loop. -/
inductive RunnerEvent where
  | podUpdate (ph : PodPhase)
  | watchClosed
  | timeout
  | signalled
  | ctxDone
deriving DecidableEq

/-- The distinct ways the watch loop returns. -/
inductive RunnerResult where
  | ok
  | orphaned
  | podFailed
  | timedOut
  | terminationRequested
deriving DecidableEq

/-- The watch loop of `clusterRunner`, driven by the sequence of events the
scheduler delivers (pod creation and watch setup succeeded).  `PodRunning`
starts log streamers and keeps waiting; `none` means the event stream ended
with the loop still waiting. -/
def clusterRunner : List RunnerEvent → Option RunnerResult
  | [] => none
  | e :: rest =>
    match e with
    | RunnerEvent.watchClosed => some RunnerResult.orphaned
    | RunnerEvent.podUpdate PodPhase.succeeded => some RunnerResult.ok
    | RunnerEvent.podUpdate PodPhase.failed => some RunnerResult.podFailed
    | RunnerEvent.podUpdate _ => clusterRunner rest
    | RunnerEvent.timeout => some RunnerResult.timedOut
    | RunnerEvent.signalled => some RunnerResult.terminationRequested
    | RunnerEvent.ctxDone => some RunnerResult.ok

/-- The Go error value of each outcome (`nil` is `none`). -/
def errOf : RunnerResult → Option String
  | RunnerResult.ok => none
  | RunnerResult.orphaned => some "orphaned pod"
  | RunnerResult.podFailed => some "Pod is a failure in its life"
  | RunnerResult.timedOut => some "Pod did not complete work in time"
  | RunnerResult.terminationRequested => some "Termination requested"

/-- Events on which the watch loop keeps waiting. -/
def nonTerminal : RunnerEvent → Bool
  | RunnerEvent.podUpdate PodPhase.pending => true
  | RunnerEvent.podUpdate PodPhase.running => true
  | RunnerEvent.podUpdate PodPhase.unknownPhase => true
  | _ => false

/-- The result a terminal event produces. -/
def resultOf : RunnerEvent → RunnerResult
  | RunnerEvent.watchClosed => RunnerResult.orphaned
  | RunnerEvent.podUpdate PodPhase.succeeded => RunnerResult.ok
  | RunnerEvent.podUpdate PodPhase.failed => RunnerResult.podFailed
  | RunnerEvent.timeout => RunnerResult.timedOut
  | RunnerEvent.signalled => RunnerResult.terminationRequested
  | RunnerEvent.ctxDone => RunnerResult.ok
  | RunnerEvent.podUpdate _ => RunnerResult.ok

/-! ## `Stage.DeepCopy` via JSON marshal / unmarshal -/

/-- The fragment of JSON values `encoding/json` produces for a `Stage`. -/
inductive JValue where
  | jstr (s : String)
  | jnum (n : Nat)
  | jbool (b : Bool)
  | jarr (xs : List JValue)
  | jobj (fs : List (String × JValue))

/-- A field emitted only when its `omitempty` condition holds. -/
def optField (cond : Bool) (k : String) (v : JValue) : List (String × JValue) :=
  if cond then [(k, v)] else []

/-- Encode a string slice. -/
def jstrs (l : List String) : JValue := JValue.jarr (l.map JValue.jstr)

/-- The field list `json.Marshal` emits for a `Stage`: the `ID` field
carries no json tag so it is always emitted under the field name; every
other field has `omitempty`. -/
def stageFields (s : Stage) : List (String × JValue) :=
  ([("ID", JValue.jstr s.id)]
      ++ optField (s.description ≠ "") "description" (JValue.jstr s.description)
      ++ optField s.concurrentExecution "concurrent" (JValue.jbool s.concurrentExecution)
      ++ optField s.directExec "direct_exec" (JValue.jbool s.directExec)
      ++ optField s.notBlocking "not_blocking" (JValue.jbool s.notBlocking)
      ++ optField (s.requireArtifacts ≠ []) "requires_artifacts" (jstrs s.requireArtifacts)
      ++ optField (s.buildArtifacts ≠ []) "build_artifacts" (jstrs s.buildArtifacts)
      ++ optField (s.commands ≠ []) "commands" (jstrs s.commands)
      ++ optField (s.prepCommands ≠ []) "prep_commands" (jstrs s.prepCommands)
      ++ optField (s.postCommands ≠ []) "post_commands" (jstrs s.postCommands)
      ++ optField s.postAlways "post_always" (JValue.jbool s.postAlways)
      ++ optField (s.executionOrder ≠ 0) "execution_order" (JValue.jnum s.executionOrder))

/-- `json.Marshal` of a `Stage`. -/
def marshalStage (s : Stage) : JValue := JValue.jobj (stageFields s)

/-- First-match field lookup in a JSON object. -/
def jlookup (fs : List (String × JValue)) (k : String) : Option JValue :=
  match fs with
  | [] => none
  | (k', v) :: rest => if k' = k then some v else jlookup rest k

/-- Decode a string field; absent fields keep the zero value. -/
def getStrField (fs : List (String × JValue)) (k : String) : Option String :=
  match jlookup fs k with
  | none => some ""
  | some (JValue.jstr s) => some s
  | some _ => none

/-- Decode a bool field; absent fields keep the zero value. -/
def getBoolField (fs : List (String × JValue)) (k : String) : Option Bool :=
  match jlookup fs k with
  | none => some false
  | some (JValue.jbool b) => some b
  | some _ => none

/-- Decode a numeric field; absent fields keep the zero value. -/
def getNumField (fs : List (String × JValue)) (k : String) : Option Nat :=
  match jlookup fs k with
  | none => some 0
  | some (JValue.jnum n) => some n
  | some _ => none

/-- Decode one element of a string slice. -/
def asStr : JValue → Option String
  | JValue.jstr s => some s
  | _ => none

/-- Decode every element of a JSON array as a string. -/
def mapAsStr : List JValue → Option (List String)
  | [] => some []
  | x :: xs =>
    match asStr x with
    | none => none
    | some s =>
      match mapAsStr xs with
      | none => none
      | some rest => some (s :: rest)

/-- Decode a string-slice field; absent fields keep the zero value. -/
def getStrsField (fs : List (String × JValue)) (k : String) : Option (List String) :=
  match jlookup fs k with
  | none => some []
  | some (JValue.jarr xs) => mapAsStr xs
  | some _ => none

/-- `json.Unmarshal` into a fresh `Stage`. -/
def unmarshalStage (j : JValue) : Option Stage :=
  match j with
  | JValue.jobj fs => do
    let id ← getStrField fs "ID"
    let description ← getStrField fs "description"
    let concurrentExecution ← getBoolField fs "concurrent"
    let directExec ← getBoolField fs "direct_exec"
    let notBlocking ← getBoolField fs "not_blocking"
    let requireArtifacts ← getStrsField fs "requires_artifacts"
    let buildArtifacts ← getStrsField fs "build_artifacts"
    let commands ← getStrsField fs "commands"
    let prepCommands ← getStrsField fs "prep_commands"
    let postCommands ← getStrsField fs "post_commands"
    let postAlways ← getBoolField fs "post_always"
    let executionOrder ← getNumField fs "execution_order"
    pure { id, description, concurrentExecution, directExec, notBlocking,
           requireArtifacts, buildArtifacts, commands, prepCommands,
           postCommands, postAlways, executionOrder }
  | _ => none

/-- `Stage.DeepCopy`: render the stage to JSON and decode a fresh `Stage`
from it; `none` models a marshal or unmarshal error. -/
def Stage.DeepCopy (s : Stage) : Option Stage := unmarshalStage (marshalStage s)

/-! ## Concrete inputs used by the executor claims -/

/-- A concurrent three-command stage with `PostAlways` set. -/
def stC4 : Stage := { commands := ["a", "b", "c"], concurrentExecution := true, postAlways := true }

/-- Renderer failing only on `script-2.sh`; tasks publish in index order. -/
def envC4 : ExecEnv :=
  { renderer := fun sc => match sc with
      | Script.main 2 => some "boom"
      | _ => none
    concOrder := [0, 1, 2] }

/-- A serial two-command stage. -/
def stC5 : Stage := { commands := ["a", "b"] }

/-- All renderer calls succeed; the `scripts` map is iterated as `[1, 0]`. -/
def envC5 : ExecEnv := { renderer := fun _ => none, serialOrder := [1, 0] }

/-- A concurrent three-command stage without `PostAlways`. -/
def stC6 : Stage := { commands := ["a", "b", "c"], concurrentExecution := true }

/-- Renderer failing only on `script-2.sh`; `post.sh` succeeds. -/
def envC6 : ExecEnv :=
  { renderer := fun sc => match sc with
      | Script.main 2 => some "boom"
      | _ => none
    concOrder := [0, 1, 2] }

/-- A serial one-command stage. -/
def stC9 : Stage := { commands := ["a"] }

/-- Every `script-<i>.sh` write fails. -/
def envC9 : ExecEnv := { renderer := fun _ => none, scriptWriteFail := fun _ => true }

/-! ## Claim theorems -/

/-- C10: `GenerateStages` called with an empty list of shorthand groups
returns the job spec entirely unchanged: no stage is appended and
`delayedMetaMerge` / `strictMode` keep their values. -/
theorem claim10_empty_generate_noop
    (ord : List Nat → List Nat) (can : String → Bool) (js : JobSpec) :
    GenerateStages ord can js [] = some js := rfl

/-- C3 (claim is the spec's mandate, the code violates it): planning is not
deterministic — two legal Go map iteration orders over the `artifactOrder`
keys (`ordId` visits keys in insertion order, `ordRev` in reverse, both
permutations of the key set) give structurally different Stages for the same
input `["base+metal"]`. -/
theorem claim3_nondeterminism :
    (∀ ks : List Nat, (ordId ks).Perm ks) ∧
    (∀ ks : List Nat, (ordRev ks).Perm ks) ∧
    GenerateStages ordId (fun _ => false) {} ["base+metal"] ≠
      GenerateStages ordRev (fun _ => false) {} ["base+metal"] ∧
    (GenerateStages ordId (fun _ => false) {} ["base+metal"]).map
        (fun js => js.stages.map Stage.buildArtifacts) = some [["base", "metal"]] ∧
    (GenerateStages ordRev (fun _ => false) {} ["base+metal"]).map
        (fun js => js.stages.map Stage.buildArtifacts) = some [["metal", "base"]] :=
  ⟨fun ks => List.Perm.refl ks, fun ks => ks.reverse_perm, by decide, by decide, by decide⟩

/-- C1 counterexample: planning the single group `"base+live-iso"` yields a
stage with `base` among its build artifacts while `qemu` stays in its
require artifacts, refuting the claim's third conjunct (the `base` entry of
the requires was already consumed by the builds-it prune, so the special
`base → ostree, qemu` removal never fires). -/
theorem claim1_counterexample :
    ∃ js st, GenerateStages ordId (fun _ => false) {} ["base+live-iso"] = some js ∧
      js.stages = [st] ∧ "base" ∈ st.buildArtifacts ∧ "qemu" ∈ st.requireArtifacts :=
  ⟨_, _, rfl, rfl, by decide, by decide⟩

/-- C2 counterexample: for `["base+metal+live-iso"]` the planner produces
`requireArtifacts = ["qemu", "metal4k"]`, not the empty list the claim
expects. -/
theorem claim2_counterexample :
    (GenerateStages ordId (fun _ => false) {} ["base+metal+live-iso"]).map
        (fun js => js.stages.map Stage.requireArtifacts) = some [["qemu", "metal4k"]] ∧
    (GenerateStages ordId (fun _ => false) {} ["base+metal+live-iso"]).map
        (fun js => js.stages.map Stage.requireArtifacts) ≠ some [[]] :=
  ⟨by decide, by decide⟩

/-- C2 amended: for any artifact catalogue, `generateStages(js,
["base+metal+live-iso"])` under insertion-order (here lowest-order-first)
map iteration produces exactly one Stage with `executionOrder = 1`,
`buildArtifacts = [base, metal, live-iso]` (order-1 artifact first, then the
order-2 artifacts in arrival order) and
`requireArtifacts = [qemu, metal4k]` (metal is pruned because it is built;
qemu and metal4k survive because the `base` requirement was already pruned,
so the special base handling never clears them). -/
theorem claim2_amended_scenario (can : String → Bool) :
    (GenerateStages ordId can {} ["base+metal+live-iso"]).map
        (fun js => js.stages.map (fun st =>
          (st.executionOrder, st.buildArtifacts, st.requireArtifacts))) =
      some [(1, ["base", "metal", "live-iso"], ["qemu", "metal4k"])] := rfl

/-- C4 (claim is the spec's mandated contract, the code violates it): with
three concurrent scripts the renderer is invoked on every script, but the
drain loop `for x := 0; x <= len(errors); x++` only receives
`drainCount 3 = 2` of the three results, so when only the last-published
task failed the error is dropped and `Stage.Execute` returns nil. -/
theorem claim4_swallowed_error :
    envC4.concOrder.Perm (List.range stC4.commands.length) ∧
    envC4.renderer (Script.main 2) = some "boom" ∧
    drainCount stC4.commands.length = 2 ∧
    Stage.Execute stC4 envC4 =
      (none, [Script.prep, Script.main 0, Script.main 1, Script.main 2, Script.post]) :=
  ⟨by decide, rfl, rfl, by decide⟩

/-- C5 counterexample: with two serial scripts and the legal map iteration
order `[1, 0]` over the `scripts` map, the renderer is invoked as
`script-1.sh` then `script-0.sh` — not in insertion order. -/
theorem claim5_counterexample :
    envC5.serialOrder.Perm (List.range stC5.commands.length) ∧
    Stage.Execute stC5 envC5 =
      (none, [Script.prep, Script.main 1, Script.main 0, Script.post]) ∧
    [Script.main 1, Script.main 0] ≠ [Script.main 0, Script.main 1] :=
  ⟨by decide, by decide, by decide⟩

/-- C6 (the claim is right, the code wrong through the same drain bug as
C4): with `postAlways = false` and a concurrent main phase whose
last-published task failed, the dropped error makes `Stage.Execute` treat
the main phase as successful, invoke `post.sh` and return its nil result —
although a main invocation failed. -/
theorem claim6_post_after_swallowed_failure :
    stC6.postAlways = false ∧
    envC6.renderer (Script.main 2) = some "boom" ∧
    Stage.Execute stC6 envC6 =
      (none, [Script.prep, Script.main 0, Script.main 1, Script.main 2, Script.post]) :=
  ⟨rfl, rfl, by decide⟩

/-- C9: when writing one of the `script-<i>.sh` files fails, `Stage.Execute`
returns nil (success) without invoking the renderer on any main command,
instead of returning the write error. -/
theorem claim9_write_failure_returns_nil
    (s : Stage) (env : ExecEnv) (cmds : List String)
    (h1 : getCommands env.can env.dmm s = some cmds) (h2 : cmds ≠ [])
    (h3 : env.tmpdirFail = false) (h4 : env.prepWriteFail = false)
    (h5 : env.renderer Script.prep = none) (h6 : env.postWriteFail = false)
    (h7 : (List.range cmds.length).any env.scriptWriteFail = true) :
    (Stage.Execute s env).1 = none ∧
    ∀ i, Script.main i ∉ (Stage.Execute s env).2 := by
  have hlen : ¬ cmds.length = 0 := by simpa using h2
  unfold Stage.Execute
  rw [h1]
  simp only [hlen, h3, h4, h5, h6, h7, if_false, if_true, Bool.false_eq_true, ite_false]
  simp [withPost]
  intro i
  split <;> simp

/-- Witness for C9: a one-command stage whose script write fails. -/
theorem claim9_write_failure_returns_nil_witness :
    (Stage.Execute stC9 envC9).1 = none ∧
    ∀ i, Script.main i ∉ (Stage.Execute stC9 envC9).2 :=
  claim9_write_failure_returns_nil stC9 envC9 ["a"] rfl (by decide) rfl rfl rfl rfl (by decide)

/-- C7: after any run of non-terminal pod events, the watch loop of the
cluster runner returns nil exactly on a `Succeeded` pod phase or a context
cancellation; every other terminal pod state produces an error, and a
received signal yields the "Termination requested" error, which no other
outcome produces. -/
theorem claim7_cluster_runner :
    (∀ (pre rest : List RunnerEvent) (e : RunnerEvent),
      (∀ x ∈ pre, nonTerminal x = true) → nonTerminal e = false →
      clusterRunner (pre ++ e :: rest) = some (resultOf e) ∧
      (errOf (resultOf e) = none ↔
        (e = RunnerEvent.podUpdate PodPhase.succeeded ∨ e = RunnerEvent.ctxDone))) ∧
    (errOf RunnerResult.terminationRequested = some "Termination requested" ∧
      ∀ r : RunnerResult, r ≠ RunnerResult.terminationRequested →
        errOf r ≠ errOf RunnerResult.terminationRequested) := by
  constructor
  · intro pre rest e hpre he
    constructor
    · induction pre with
      | nil =>
        cases e with
        | podUpdate ph => cases ph <;> simp_all [clusterRunner, resultOf, nonTerminal]
        | watchClosed => simp [clusterRunner, resultOf]
        | timeout => simp [clusterRunner, resultOf]
        | signalled => simp [clusterRunner, resultOf]
        | ctxDone => simp [clusterRunner, resultOf]
      | cons x xs ih =>
        have hx := hpre x (List.mem_cons_self _ _)
        have hxs : ∀ y ∈ xs, nonTerminal y = true := fun y hy => hpre y (List.mem_cons_of_mem _ hy)
        have hih := ih hxs
        cases x with
        | podUpdate ph => cases ph <;> simp_all [clusterRunner, nonTerminal]
        | watchClosed => simp [nonTerminal] at hx
        | timeout => simp [nonTerminal] at hx
        | signalled => simp [nonTerminal] at hx
        | ctxDone => simp [nonTerminal] at hx
    · cases e with
      | podUpdate ph => cases ph <;> simp_all [errOf, resultOf, nonTerminal]
      | watchClosed => simp [errOf, resultOf]
      | timeout => simp [errOf, resultOf]
      | signalled => simp [errOf, resultOf]
      | ctxDone => simp [errOf, resultOf]
  · exact ⟨rfl, fun r hr => by cases r <;> simp_all [errOf]⟩

/-- Witness for C7: a pending pod that then succeeds makes the runner
return nil. -/
theorem claim7_cluster_runner_witness :
    clusterRunner
        ([RunnerEvent.podUpdate PodPhase.pending, RunnerEvent.podUpdate PodPhase.running] ++
          RunnerEvent.podUpdate PodPhase.succeeded :: []) =
      some (resultOf (RunnerEvent.podUpdate PodPhase.succeeded)) ∧
    (errOf (resultOf (RunnerEvent.podUpdate PodPhase.succeeded)) = none ↔
      (RunnerEvent.podUpdate PodPhase.succeeded = RunnerEvent.podUpdate PodPhase.succeeded ∨
        RunnerEvent.podUpdate PodPhase.succeeded = RunnerEvent.ctxDone)) :=
  claim7_cluster_runner.1
    [RunnerEvent.podUpdate PodPhase.pending, RunnerEvent.podUpdate PodPhase.running] []
    (RunnerEvent.podUpdate PodPhase.succeeded) (by decide) (by decide)

/-! ## Deep-copy round trip (C8) -/

/-- Lookup distributes over appended field segments. -/
theorem jlookup_append (a b : List (String × JValue)) (k : String) :
    jlookup (a ++ b) k = (jlookup a k).or (jlookup b k) := by
  induction a with
  | nil => simp [jlookup]
  | cons x xs ih =>
    obtain ⟨k', v⟩ := x
    by_cases h : k' = k <;> simp [jlookup, h, ih]

theorem jlookup_optField_ne (c : Bool) (k' : String) (v : JValue) (k : String) (h : ¬ k' = k) :
    jlookup (optField c k' v) k = none := by
  unfold optField
  split <;> simp [jlookup, h]

theorem jlookup_optField_self (c : Bool) (k : String) (v : JValue) :
    jlookup (optField c k v) k = if c then some v else none := by
  unfold optField
  split <;> simp [jlookup]

theorem mapAsStr_jstr (l : List String) : mapAsStr (l.map JValue.jstr) = some l := by
  induction l with
  | nil => rfl
  | cons x xs ih => simp [mapAsStr, asStr, ih]

theorem getStr_id (s : Stage) : getStrField (stageFields s) "ID" = some s.id := by
  simp [getStrField, stageFields, jlookup_append, jlookup]

theorem getStr_description (s : Stage) :
    getStrField (stageFields s) "description" = some s.description := by
  simp [getStrField, stageFields, jlookup_append, jlookup, jlookup_optField_ne,
    jlookup_optField_self]
  by_cases h : s.description = "" <;> simp [h]

theorem getBool_concurrent (s : Stage) :
    getBoolField (stageFields s) "concurrent" = some s.concurrentExecution := by
  simp [getBoolField, stageFields, jlookup_append, jlookup, jlookup_optField_ne,
    jlookup_optField_self]
  by_cases h : s.concurrentExecution = true <;> simp_all

theorem getStrs_requires (s : Stage) :
    getStrsField (stageFields s) "requires_artifacts" = some s.requireArtifacts := by
  simp [getStrsField, stageFields, jlookup_append, jlookup, jlookup_optField_ne,
    jlookup_optField_self, jstrs]
  by_cases h : s.requireArtifacts = [] <;> simp [h, mapAsStr_jstr]

theorem getNum_order (s : Stage) :
    getNumField (stageFields s) "execution_order" = some s.executionOrder := by
  simp [getNumField, stageFields, jlookup_append, jlookup, jlookup_optField_ne,
    jlookup_optField_self]
  by_cases h : s.executionOrder = 0 <;> simp [h]

theorem getBool_direct (s : Stage) :
    getBoolField (stageFields s) "direct_exec" = some s.directExec := by
  simp [getBoolField, stageFields, jlookup_append, jlookup, jlookup_optField_ne,
    jlookup_optField_self]
  by_cases h : s.directExec = true <;> simp_all

theorem getBool_notBlocking (s : Stage) :
    getBoolField (stageFields s) "not_blocking" = some s.notBlocking := by
  simp [getBoolField, stageFields, jlookup_append, jlookup, jlookup_optField_ne,
    jlookup_optField_self]
  by_cases h : s.notBlocking = true <;> simp_all

theorem getBool_postAlways (s : Stage) :
    getBoolField (stageFields s) "post_always" = some s.postAlways := by
  simp [getBoolField, stageFields, jlookup_append, jlookup, jlookup_optField_ne,
    jlookup_optField_self]
  by_cases h : s.postAlways = true <;> simp_all

theorem getStrs_builds (s : Stage) :
    getStrsField (stageFields s) "build_artifacts" = some s.buildArtifacts := by
  simp [getStrsField, stageFields, jlookup_append, jlookup, jlookup_optField_ne,
    jlookup_optField_self, jstrs]
  by_cases h : s.buildArtifacts = [] <;> simp [h, mapAsStr_jstr]

theorem getStrs_commands (s : Stage) :
    getStrsField (stageFields s) "commands" = some s.commands := by
  simp [getStrsField, stageFields, jlookup_append, jlookup, jlookup_optField_ne,
    jlookup_optField_self, jstrs]
  by_cases h : s.commands = [] <;> simp [h, mapAsStr_jstr]

theorem getStrs_prep (s : Stage) :
    getStrsField (stageFields s) "prep_commands" = some s.prepCommands := by
  simp [getStrsField, stageFields, jlookup_append, jlookup, jlookup_optField_ne,
    jlookup_optField_self, jstrs]
  by_cases h : s.prepCommands = [] <;> simp [h, mapAsStr_jstr]

theorem getStrs_post (s : Stage) :
    getStrsField (stageFields s) "post_commands" = some s.postCommands := by
  simp [getStrsField, stageFields, jlookup_append, jlookup, jlookup_optField_ne,
    jlookup_optField_self, jstrs]
  by_cases h : s.postCommands = [] <;> simp [h, mapAsStr_jstr]

/-- C8: `Stage.DeepCopy` (serialize to JSON, decode a fresh value) returns a
Stage value-equal to its input, for every Stage; the copy is built from
freshly decoded sequences, so it shares no mutable state with the
original. -/
theorem claim8_deepcopy_roundtrip (s : Stage) : Stage.DeepCopy s = some s := by
  unfold Stage.DeepCopy marshalStage unmarshalStage
  simp [getStr_id, getStr_description, getBool_concurrent, getBool_direct,
    getBool_notBlocking, getStrs_requires, getStrs_builds, getStrs_commands,
    getStrs_prep, getStrs_post, getBool_postAlways, getNum_order]

/-! ## Serial execution order (C5) -/

/-- The indices of the main scripts a trace invoked, in order. -/
def mainsOf : List Script → List Nat
  | [] => []
  | Script.main i :: rest => i :: mainsOf rest
  | _ :: rest => mainsOf rest

/-- Extraction distributes over appended traces. -/
theorem mainsOf_append (a b : List Script) : mainsOf (a ++ b) = mainsOf a ++ mainsOf b := by
  induction a with
  | nil => rfl
  | cons x xs ih => cases x <;> simp [mainsOf, ih]

/-- Extraction recovers a pure main-script trace. -/
theorem mainsOf_map (l : List Nat) : mainsOf (l.map Script.main) = l := by
  induction l with
  | nil => rfl
  | cons x xs ih => simp [mainsOf, ih]

/-- When every script succeeds, the serial loop runs the whole iteration
order. -/
theorem runSerial_all_ok (renderer : Script → Option String) (order : List Nat)
    (h : ∀ i ∈ order, renderer (Script.main i) = none) :
    runSerial renderer order = (none, order) := by
  induction order with
  | nil => rfl
  | cons x xs ih =>
    have hx := h x (List.mem_cons_self _ _)
    have hxs := fun i hi => h i (List.mem_cons_of_mem _ hi)
    simp [runSerial, hx, ih hxs]

/-- The serial loop stops at the first failing script and returns its
error. -/
theorem runSerial_first_fail (renderer : Script → Option String)
    (pre rest : List Nat) (j : Nat) (e : String)
    (hpre : ∀ i ∈ pre, renderer (Script.main i) = none)
    (hj : renderer (Script.main j) = some e) :
    runSerial renderer (pre ++ j :: rest) = (some e, pre ++ [j]) := by
  induction pre with
  | nil => simp [runSerial, hj]
  | cons x xs ih =>
    have hx := hpre x (List.mem_cons_self _ _)
    have hxs := fun i hi => hpre i (List.mem_cons_of_mem _ hi)
    simp [runSerial, hx, ih hxs]

/-- Whatever the post policy, `finishMain` appends exactly one `post.sh`
invocation. -/
theorem finishMain_trace (s : Stage) (env : ExecEnv) (tr : List Script) :
    (finishMain s env tr).2 = tr ++ [Script.post] := by
  unfold finishMain
  split
  · rfl
  · cases env.renderer Script.post <;> rfl

/-- C5 amended: with `concurrentExecution = false` the renderer is invoked
once per script following the Go map iteration order over the `scripts`
map (not necessarily insertion order): if every invocation succeeds all
`n` scripts are invoked in that order, and if position `k` of that order is
the first to fail, exactly `k + 1` invocations are made and `Stage.Execute`
returns that error. -/
theorem claim5_amended_serial :
    (∀ (s : Stage) (env : ExecEnv) (cmds : List String),
      getCommands env.can env.dmm s = some cmds → cmds ≠ [] →
      env.tmpdirFail = false → env.prepWriteFail = false →
      env.renderer Script.prep = none → env.postWriteFail = false →
      (List.range cmds.length).any env.scriptWriteFail = false →
      s.concurrentExecution = false →
      env.serialOrder.Perm (List.range cmds.length) →
      (∀ i ∈ env.serialOrder, env.renderer (Script.main i) = none) →
      mainsOf (Stage.Execute s env).2 = env.serialOrder ∧
      (mainsOf (Stage.Execute s env).2).length = cmds.length) ∧
    (∀ (s : Stage) (env : ExecEnv) (cmds : List String) (pre rest : List Nat)
        (j : Nat) (e : String),
      getCommands env.can env.dmm s = some cmds → cmds ≠ [] →
      env.tmpdirFail = false → env.prepWriteFail = false →
      env.renderer Script.prep = none → env.postWriteFail = false →
      (List.range cmds.length).any env.scriptWriteFail = false →
      s.concurrentExecution = false →
      env.serialOrder = pre ++ j :: rest →
      (∀ i ∈ pre, env.renderer (Script.main i) = none) →
      env.renderer (Script.main j) = some e →
      (Stage.Execute s env).1 = some (ExecErr.rendererErr e) ∧
      mainsOf (Stage.Execute s env).2 = pre ++ [j] ∧
      (mainsOf (Stage.Execute s env).2).length = pre.length + 1) := by
  constructor
  · intro s env cmds h1 h2 h3 h4 h5 h6 h7 h8 hperm hok
    have hlen : ¬ cmds.length = 0 := by simpa using h2
    have hrun := runSerial_all_ok env.renderer env.serialOrder hok
    unfold Stage.Execute
    rw [h1]
    simp only [hlen, h3, h4, h5, h6, h7, h8, if_false, if_true, Bool.false_eq_true,
      ite_false, Bool.not_false, ite_true, hrun]
    rw [finishMain_trace]
    constructor
    · simp [mainsOf, mainsOf_append, mainsOf_map]
    · simp [mainsOf, mainsOf_append, mainsOf_map, hperm.length_eq]
  · intro s env cmds pre rest j e h1 h2 h3 h4 h5 h6 h7 h8 hord hpre hj
    have hlen : ¬ cmds.length = 0 := by simpa using h2
    have hrun := runSerial_first_fail env.renderer pre rest j e hpre hj
    unfold Stage.Execute
    rw [h1]
    simp only [hlen, h3, h4, h5, h6, h7, h8, hord, if_false, if_true, Bool.false_eq_true,
      ite_false, Bool.not_false, ite_true, hrun]
    refine ⟨?_, ?_, ?_⟩ <;>
      simp [withPost, mainsOf, mainsOf_append, mainsOf_map] <;>
      split <;> simp [mainsOf_append, mainsOf_map, mainsOf]

/-- Renderer failing on `script-0.sh` only; the `scripts` map is iterated
as `[1, 0]`. -/
def envC5f : ExecEnv :=
  { renderer := fun sc => match sc with
      | Script.main 0 => some "bad"
      | _ => none
    serialOrder := [1, 0] }

/-- Witness for C5 amended: both branches applied to the two-command serial
stage under the map iteration order `[1, 0]`. -/
theorem claim5_amended_serial_witness :
    (mainsOf (Stage.Execute stC5 envC5).2 = envC5.serialOrder ∧
      (mainsOf (Stage.Execute stC5 envC5).2).length = (["a", "b"] : List String).length) ∧
    ((Stage.Execute stC5 envC5f).1 = some (ExecErr.rendererErr "bad") ∧
      mainsOf (Stage.Execute stC5 envC5f).2 = [1] ++ [0] ∧
      (mainsOf (Stage.Execute stC5 envC5f).2).length = [1].length + 1) :=
  ⟨claim5_amended_serial.1 stC5 envC5 ["a", "b"] rfl (by decide) rfl rfl rfl rfl
      (by decide) rfl (by decide) (fun i _ => rfl),
    claim5_amended_serial.2 stC5 envC5f ["a", "b"] [1] [] 0 "bad" rfl (by decide) rfl rfl
      rfl rfl (by decide) rfl rfl (by decide) rfl⟩

/-! ## Prune-loop analysis (C1) -/

/-- `remove` computes the first-occurrence erasure. -/
theorem removeFirst_fst (l : List String) (k : String) : (removeFirst l k).1 = l.erase k := by
  induction l with
  | nil => rfl
  | cons x xs ih =>
    by_cases h : x = k <;> simp [removeFirst, List.erase_cons, h, ih]

/-- `remove` reports a find exactly when the key is present. -/
theorem removeFirst_snd (l : List String) (k : String) :
    (removeFirst l k).2 = true ↔ k ∈ l := by
  induction l with
  | nil => simp [removeFirst]
  | cons x xs ih =>
    by_cases h : x = k
    · subst h; simp [removeFirst]
    · simp [removeFirst, h, ih, List.mem_cons]
      exact fun he => absurd he.symm h

/-- `remove` on a present key, seen through the backing array. -/
theorem removeRA_of_mem {st : PruneSt} {k : String} (h : k ∈ st.1) :
    removeRA st k = (st.1.erase k, st.1.getLastD "" :: st.2) := by
  unfold removeRA; rw [if_pos h]

/-- `remove` on an absent key changes nothing. -/
theorem removeRA_of_not_mem {st : PruneSt} {k : String} (h : k ∉ st.1) :
    removeRA st k = st := by
  unfold removeRA; rw [if_neg h]

/-- A scan step whose read matches erases through `remove`. -/
theorem scanStep_pos {ba : String} {st : PruneSt} {i : Nat}
    (h : (st.1 ++ st.2).getD i "" = ba) : scanStep ba st i = removeRA st ba := by
  unfold scanStep; rw [if_pos h]

/-- A scan step whose read differs changes nothing. -/
theorem scanStep_neg {ba : String} {st : PruneSt} {i : Nat}
    (h : ¬ (st.1 ++ st.2).getD i "" = ba) : scanStep ba st i = st := by
  unfold scanStep; rw [if_neg h]

/-- The backing array never changes length. -/
theorem scanStep_length (ba : String) (st : PruneSt) (i : Nat) :
    ((scanStep ba st i).1 ++ (scanStep ba st i).2).length = (st.1 ++ st.2).length := by
  by_cases h : (st.1 ++ st.2).getD i "" = ba
  · rw [scanStep_pos h]
    by_cases hm : ba ∈ st.1
    · rw [removeRA_of_mem hm]
      have hlp : 0 < st.1.length := List.length_pos.mpr (by intro he; rw [he] at hm; simp at hm)
      simp only [List.length_append, List.length_cons, List.length_erase_of_mem hm]
      omega
    · rw [removeRA_of_not_mem hm]
  · rw [scanStep_neg h]

/-- Length preservation along a whole scan. -/
theorem foldScan_length (ba : String) (is : List Nat) (st : PruneSt) :
    (((is.foldl (scanStep ba) st).1 ++ (is.foldl (scanStep ba) st).2)).length =
      (st.1 ++ st.2).length := by
  induction is generalizing st with
  | nil => rfl
  | cons i is ih => simp only [List.foldl_cons]; rw [ih, scanStep_length]

/-- Invariant carried through the scan for `v` from cell `i` on: either `v`
is gone from the live slice, or one copy is left and a cell at or past `i`
still reads `v`, or two copies are left with the second one the last live
cell and the first at a cell at or past `i` but at least two before the live
end. -/
def Jinv (v : String) (L i : Nat) (st : PruneSt) : Prop :=
  st.1.count v = 0
  ∨ (st.1.count v = 1 ∧ ∃ p, i ≤ p ∧ p < L ∧ (st.1 ++ st.2).getD p "" = v)
  ∨ (st.1.count v = 2 ∧ st.1.getLast? = some v ∧
      ∃ p, i ≤ p ∧ p + 2 ≤ st.1.length ∧ st.1.getD p "" = v)

/-- Core lemma: a full scan for `v` under the invariant leaves no copy of
`v` in the live slice — the shifted-out duplicate in the first stale cell
rescues exactly the adjacent-pair-at-the-end case. -/
theorem scanFrom_clears (v : String) (L : Nat) :
    ∀ (n i : Nat) (st : PruneSt), i + n = L → (st.1 ++ st.2).length = L →
      Jinv v L i st → ((List.range' i n).foldl (scanStep v) st).1.count v = 0 := by
  intro n
  induction n with
  | zero =>
    intro i st hiL hlen hJ
    have hfst : st.1.length ≤ L := by
      rw [← hlen, List.length_append]; omega
    rcases hJ with h0 | ⟨h1, p, hip, hpL, hval⟩ | ⟨h2, hlast, p, hip, hpl, hval⟩
    · simpa using h0
    · omega
    · omega
  | succ n ih =>
    intro i st hiL hlen hJ
    rw [List.range'_succ]
    simp only [List.foldl_cons]
    have hfstlen : st.1.length ≤ L := by
      rw [← hlen, List.length_append]; omega
    refine ih (i + 1) (scanStep v st i) (by omega) (by rw [scanStep_length]; exact hlen) ?_
    by_cases hread : (st.1 ++ st.2).getD i "" = v
    · rw [scanStep_pos hread]
      rcases hJ with h0 | ⟨h1, p, hip, hpL, hval⟩ | ⟨h2, hlast, p, hip, hpl, hval⟩
      · left
        have hv : v ∉ st.1 := List.count_eq_zero.mp h0
        rw [removeRA_of_not_mem hv]
        exact h0
      · left
        have hv : v ∈ st.1 := List.count_pos_iff.mp (by omega)
        rw [removeRA_of_mem hv]
        simp [h1]
      · right; left
        have hv : v ∈ st.1 := List.count_pos_iff.mp (by omega)
        have hne : st.1 ≠ [] := by intro he; rw [he] at hv; simp at hv
        have herlen : (st.1.erase v).length = st.1.length - 1 := List.length_erase_of_mem hv
        rw [removeRA_of_mem hv]
        refine ⟨by simp [h2], st.1.length - 1, by omega, ?_, ?_⟩
        · omega
        · show ((st.1.erase v) ++ st.1.getLastD "" :: st.2).getD (st.1.length - 1) "" = v
          rw [List.getD_eq_getElem?_getD, List.getElem?_append_right (by omega)]
          rw [herlen, Nat.sub_self]
          simp [List.getLastD_eq_getLast?, hlast]
    · rw [scanStep_neg hread]
      rcases hJ with h0 | ⟨h1, p, hip, hpL, hval⟩ | ⟨h2, hlast, p, hip, hpl, hval⟩
      · left; exact h0
      · right; left
        refine ⟨h1, p, ?_, hpL, hval⟩
        have : p ≠ i := fun h => hread (h ▸ hval)
        omega
      · right; right
        refine ⟨h2, hlast, p, ?_, hpl, hval⟩
        have hpl' : p < st.1.length := by omega
        have happ : (st.1 ++ st.2).getD p "" = st.1.getD p "" := by
          simp [List.getD_eq_getElem?_getD, List.getElem?_append_left hpl',
            List.getElem?_eq_getElem hpl']
        have : p ≠ i := by
          intro h
          apply hread
          rw [← h, happ, hval]
        omega

/-- A scan step never adds occurrences. -/
theorem scanStep_count_le (w ba : String) (st : PruneSt) (i : Nat) :
    (scanStep ba st i).1.count w ≤ st.1.count w := by
  by_cases h : (st.1 ++ st.2).getD i "" = ba
  · rw [scanStep_pos h]
    by_cases hm : ba ∈ st.1
    · rw [removeRA_of_mem hm]
      rw [List.count_erase]
      split <;> omega
    · rw [removeRA_of_not_mem hm]
  · rw [scanStep_neg h]

/-- A scan for `ba` leaves counts of other values unchanged. -/
theorem scanStep_count_of_ne {w ba : String} (h : w ≠ ba) (st : PruneSt) (i : Nat) :
    (scanStep ba st i).1.count w = st.1.count w := by
  by_cases hr : (st.1 ++ st.2).getD i "" = ba
  · rw [scanStep_pos hr]
    by_cases hm : ba ∈ st.1
    · rw [removeRA_of_mem hm]
      exact List.count_erase_of_ne h st.1
    · rw [removeRA_of_not_mem hm]
  · rw [scanStep_neg hr]

/-- Erasing a different value keeps the last element. -/
theorem getLast?_erase_of_ne {l : List String} {w b : String}
    (hw : l.getLast? = some w) (hne : b ≠ w) : (l.erase b).getLast? = some w := by
  by_cases hb : b ∈ l
  · obtain ⟨l₁, l₂, hnb, hdecomp, herase⟩ := List.exists_erase_eq hb
    rw [herase]
    cases l₂ with
    | nil =>
      rw [hdecomp] at hw
      rw [List.getLast?_concat] at hw
      exact absurd (Option.some_injective _ hw) hne
    | cons y ys =>
      rw [hdecomp] at hw
      rw [List.getLast?_append] at hw ⊢
      have hcons : (b :: y :: ys).getLast? = (y :: ys).getLast? := by
        simp [List.getLast?_cons_cons]
      rw [hcons] at hw
      exact hw
  · rw [List.erase_of_not_mem hb]
    exact hw

/-- A scan step for `ba` keeps a different last live element. -/
theorem scanStep_getLast_of_ne {w ba : String} (h : ba ≠ w) {st : PruneSt} (i : Nat)
    (hw : st.1.getLast? = some w) : (scanStep ba st i).1.getLast? = some w := by
  by_cases hr : (st.1 ++ st.2).getD i "" = ba
  · rw [scanStep_pos hr]
    by_cases hm : ba ∈ st.1
    · rw [removeRA_of_mem hm]
      exact getLast?_erase_of_ne hw h
    · rw [removeRA_of_not_mem hm]; exact hw
  · rw [scanStep_neg hr]; exact hw

/-- Counts never grow along a whole scan. -/
theorem foldScan_count_le (ba w : String) (is : List Nat) (st : PruneSt) :
    ((is.foldl (scanStep ba) st).1.count w) ≤ st.1.count w := by
  induction is generalizing st with
  | nil => exact Nat.le_refl _
  | cons i is ih =>
    simp only [List.foldl_cons]
    exact Nat.le_trans (ih _) (scanStep_count_le w ba st i)

/-- Counts of other values survive a whole scan. -/
theorem foldScan_count_of_ne {w ba : String} (h : w ≠ ba) (is : List Nat) (st : PruneSt) :
    ((is.foldl (scanStep ba) st).1.count w) = st.1.count w := by
  induction is generalizing st with
  | nil => rfl
  | cons i is ih =>
    simp only [List.foldl_cons]
    rw [ih _, scanStep_count_of_ne h]

/-- A different last live element survives a whole scan. -/
theorem foldScan_getLast_of_ne {w ba : String} (h : ba ≠ w) (is : List Nat) (st : PruneSt)
    (hw : st.1.getLast? = some w) :
    ((is.foldl (scanStep ba) st).1.getLast? = some w) := by
  induction is generalizing st with
  | nil => exact hw
  | cons i is ih =>
    simp only [List.foldl_cons]
    exact ih _ (scanStep_getLast_of_ne h i hw)

/-- What the planner invariant grants each build artifact about the
requires window: at most one copy, or exactly two with the second one last
(the `qemu`-shorthand case). -/
def HypV (v : String) (rr : List String) : Prop :=
  rr.count v ≤ 1 ∨ (rr.count v = 2 ∧ rr.getLast? = some v)

/-- A full inner scan for `ba` clears `ba` whenever the window grants
`HypV`. -/
theorem innerScan_clears_self (L : Nat) (ba : String) (st : PruneSt)
    (hlen : (st.1 ++ st.2).length = L) (h : HypV ba st.1) :
    (innerScan L ba st).1.count ba = 0 := by
  unfold innerScan
  rw [List.range_eq_range']
  refine scanFrom_clears ba L L 0 st (by omega) hlen ?_
  have hfst : st.1.length ≤ L := by rw [← hlen, List.length_append]; omega
  rcases h with hle | ⟨h2, hlast⟩
  · by_cases h0 : st.1.count ba = 0
    · left; exact h0
    · right; left
      have h1 : st.1.count ba = 1 := by omega
      refine ⟨h1, ?_⟩
      have hv : ba ∈ st.1 := List.count_pos_iff.mp (by omega)
      obtain ⟨p, hp, hval⟩ := List.getElem_of_mem hv
      refine ⟨p, Nat.zero_le p, by omega, ?_⟩
      rw [List.getD_eq_getElem?_getD, List.getElem?_append_left hp,
        List.getElem?_eq_getElem hp]
      simpa using hval
  · right; right
    refine ⟨h2, hlast, ?_⟩
    have hne : st.1 ≠ [] := by
      intro he; rw [he] at hlast; simp at hlast
    have hdec : st.1.dropLast ++ [ba] = st.1 := List.dropLast_append_getLast? ba hlast
    have hdllen : st.1.dropLast.length = st.1.length - 1 := by simp [List.length_dropLast]
    have hcnt : st.1.dropLast.count ba = 1 := by
      have : st.1.count ba = st.1.dropLast.count ba + 1 := by
        conv_lhs => rw [← hdec]
        simp [List.count_append]
      omega
    have hv : ba ∈ st.1.dropLast := List.count_pos_iff.mp (by omega)
    obtain ⟨p, hp, hval⟩ := List.getElem_of_mem hv
    have hplen : p < st.1.length - 1 := by omega
    have hlen1 : 1 ≤ st.1.length := List.length_pos.mpr hne
    refine ⟨p, Nat.zero_le p, by omega, ?_⟩
    have hq1 : st.1.dropLast[p]? = some ba := by
      rw [List.getElem?_eq_getElem hp, hval]
    rw [List.getElem?_dropLast, if_pos hplen] at hq1
    rw [List.getD_eq_getElem?_getD, hq1]
    rfl

/-- Counts never grow along the whole nested loop. -/
theorem foldBas_count_le (L : Nat) (bas : List String) (st : PruneSt) (w : String) :
    ((bas.foldl (fun acc ba => innerScan L ba acc) st).1.count w) ≤ st.1.count w := by
  induction bas generalizing st with
  | nil => exact Nat.le_refl _
  | cons b bs ih =>
    simp only [List.foldl_cons]
    refine Nat.le_trans (ih _) ?_
    unfold innerScan
    exact foldScan_count_le b w _ st

/-- The nested prune loop clears every build artifact the window grants
`HypV` for. -/
theorem foldBas_clears (L : Nat) :
    ∀ (bas : List String) (st : PruneSt), (st.1 ++ st.2).length = L →
      (∀ v ∈ bas, HypV v st.1) →
      ∀ v ∈ bas, ((bas.foldl (fun acc ba => innerScan L ba acc) st).1.count v = 0) := by
  intro bas
  induction bas with
  | nil => intro st _ _ v hv; simp at hv
  | cons b bs ih =>
    intro st hlen hhyp v hv
    simp only [List.foldl_cons]
    have hlen1 : ((innerScan L b st).1 ++ (innerScan L b st).2).length = L := by
      unfold innerScan; rw [foldScan_length]; exact hlen
    rcases List.mem_cons.mp hv with rfl | hvbs
    · have h0 : (innerScan L v st).1.count v = 0 :=
        innerScan_clears_self L v st hlen (hhyp v (List.mem_cons_self _ _))
      have := foldBas_count_le L bs (innerScan L v st) v
      omega
    · refine ih (innerScan L b st) hlen1 ?_ v hvbs
      intro w hw
      by_cases hwb : w = b
      · subst hwb
        left
        have h0 : (innerScan L w st).1.count w = 0 :=
          innerScan_clears_self L w st hlen (hhyp w (List.mem_cons_self _ _))
        omega
      · have hcnt : (innerScan L b st).1.count w = st.1.count w := by
          unfold innerScan
          exact foldScan_count_of_ne hwb _ st
        rcases hhyp w (List.mem_cons_of_mem _ hw) with hle | ⟨h2, hlast⟩
        · left; omega
        · right
          refine ⟨by omega, ?_⟩
          unfold innerScan
          exact foldScan_getLast_of_ne (fun h => hwb h.symm) _ st hlast

/-- Membership in the seen-set dedup. -/
theorem mem_uniqueGo (l : List String) :
    ∀ (seen : List String) (a : String), a ∈ uniqueGo l seen ↔ (a ∈ l ∧ a ∉ seen) := by
  induction l with
  | nil => intro seen a; simp [uniqueGo]
  | cons x xs ih =>
    intro seen a
    by_cases hx : x ∈ seen
    · rw [uniqueGo, if_pos hx, ih]
      constructor
      · exact fun ⟨h1, h2⟩ => ⟨List.mem_cons_of_mem _ h1, h2⟩
      · rintro ⟨h1, h2⟩
        rcases List.mem_cons.mp h1 with rfl | h1
        · exact absurd hx h2
        · exact ⟨h1, h2⟩
    · rw [uniqueGo, if_neg hx]
      simp only [List.mem_cons, ih]
      constructor
      · rintro (rfl | ⟨h1, h2⟩)
        · exact ⟨Or.inl rfl, hx⟩
        · exact ⟨Or.inr h1, fun hs => h2 (Or.inr hs)⟩
      · rintro ⟨h1, h2⟩
        by_cases hax : a = x
        · exact Or.inl hax
        · rcases h1 with rfl | h1
          · exact Or.inl rfl
          · exact Or.inr ⟨h1, fun hs => hs.elim hax h2⟩

/-- `unique` keeps exactly the members. -/
theorem mem_unique (l : List String) (a : String) : a ∈ unique l ↔ a ∈ l := by
  rw [unique, mem_uniqueGo]
  simp

/-- The seen-set dedup is duplicate-free. -/
theorem nodup_uniqueGo (l : List String) : ∀ seen : List String, (uniqueGo l seen).Nodup := by
  induction l with
  | nil => intro seen; simp [uniqueGo]
  | cons x xs ih =>
    intro seen
    by_cases hx : x ∈ seen
    · rw [uniqueGo, if_pos hx]; exact ih seen
    · rw [uniqueGo, if_neg hx]
      refine List.nodup_cons.mpr ⟨?_, ih _⟩
      intro hmem
      exact ((mem_uniqueGo xs _ x).mp hmem).2 (List.mem_cons_self _ _)

/-- `unique` is duplicate-free. -/
theorem nodup_unique (l : List String) : (unique l).Nodup := nodup_uniqueGo l []

/-- A bucket insertion only adds the inserted artifact. -/
theorem mem_lookupD_bucketAdd (acc : List (Nat × List String)) (k0 : Nat) (x : String)
    (k : Nat) (v : String) (h : v ∈ lookupD (bucketAdd acc k0 x) k) :
    v ∈ lookupD acc k ∨ v = x := by
  induction acc with
  | nil =>
    rw [bucketAdd] at h
    rw [lookupD] at h
    split at h
    · rcases List.mem_singleton.mp h with rfl
      · right; rfl
    · cases h
  | cons p rest ih =>
    obtain ⟨k', vs⟩ := p
    by_cases hk : k' = k0
    · rw [bucketAdd, if_pos hk] at h
      rw [lookupD] at h
      rw [lookupD]
      split at h
      · next hkk =>
        rw [if_pos hkk]
        rcases List.mem_append.mp h with h1 | h1
        · left; exact h1
        · right; exact List.mem_singleton.mp h1
      · next hkk =>
        rw [if_neg hkk]
        left; exact h
    · rw [bucketAdd, if_neg hk] at h
      rw [lookupD] at h
      rw [lookupD]
      split at h
      · next hkk => rw [if_pos hkk]; left; exact h
      · next hkk => rw [if_neg hkk]; exact ih h

/-- Every artifact found in the built buckets came from the classified
list (or the starting accumulator). -/
theorem mem_lookupD_mkBuckets (can : String → Bool) (art : String) :
    ∀ (l : List String) (acc bs : List (Nat × List String)),
      mkBuckets can art l acc = some bs →
      ∀ (k : Nat) (v : String), v ∈ lookupD bs k → v ∈ l ∨ v ∈ lookupD acc k := by
  intro l
  induction l with
  | nil =>
    intro acc bs h k v hv
    rw [mkBuckets] at h
    injection h with h
    right
    rw [h]
    exact hv
  | cons a as ih =>
    intro acc bs h k v hv
    rw [mkBuckets] at h
    cases hq : quickStage can art a with
    | none => rw [hq] at h; cases h
    | some f =>
      rw [hq] at h
      rcases ih _ _ h k v hv with h1 | h1
      · left; exact List.mem_cons_of_mem _ h1
      · rcases mem_lookupD_bucketAdd _ _ _ _ _ h1 with h2 | rfl
        · right; exact h2
        · left; exact List.mem_cons_self _ _

/-- Every element of the reassembled order came from some bucket. -/
theorem mem_foldl_lookupD (bs : List (Nat × List String)) :
    ∀ (ks : List Nat) (acc : List String) (v : String),
      v ∈ ks.foldl (fun acc k => acc ++ lookupD bs k) acc →
      v ∈ acc ∨ ∃ k, v ∈ lookupD bs k := by
  intro ks
  induction ks with
  | nil => intro acc v h; left; exact h
  | cons k ks ih =>
    intro acc v h
    simp only [List.foldl_cons] at h
    rcases ih _ v h with h1 | h1
    · rcases List.mem_append.mp h1 with h2 | h2
      · left; exact h2
      · right; exact ⟨k, h2⟩
    · right; exact h1

/-- The planner invariant: after every `addShorthandToStage` call the
stage's build artifacts are duplicate-free, its require artifacts are
duplicate-free and disjoint from the build artifacts, and `base` never
remains a requirement. -/
def StageInv (s : Stage) : Prop :=
  s.buildArtifacts.Nodup ∧ s.requireArtifacts.Nodup ∧
  (∀ a ∈ s.requireArtifacts, a ∉ s.buildArtifacts) ∧ "base" ∉ s.requireArtifacts

/-- Entering a call under the invariant, every artifact of the appended
build list satisfies `HypV` over the appended requires window, and the
window holds at most one `base`.  The only two-copy case is a `qemu`
build shorthand whose copy from a generic template ends the window. -/
theorem window_facts (can : String → Bool) (artifact : String) (working : Stage)
    (stage : Stage)
    (hq : quickStage can artifact artifact = some working)
    (hnodup : stage.requireArtifacts.Nodup)
    (hdisj : ∀ a ∈ stage.requireArtifacts, a ∉ stage.buildArtifacts)
    (hbase : "base" ∉ stage.requireArtifacts) :
    (∀ v ∈ stage.buildArtifacts ++ working.buildArtifacts,
        HypV v (stage.requireArtifacts ++ working.requireArtifacts)) ∧
    (stage.requireArtifacts ++ working.requireArtifacts).count "base" ≤ 1 := by
  have hcnt0 : ∀ w, stage.requireArtifacts.count w ≤ 1 :=
    fun w => List.nodup_iff_count_le_one.mp hnodup w
  have hcnt_ba : ∀ w ∈ stage.buildArtifacts, stage.requireArtifacts.count w = 0 :=
    fun w hw => List.count_eq_zero_of_not_mem (fun hmem => hdisj w hmem hw)
  have hcnt_base : stage.requireArtifacts.count "base" = 0 :=
    List.count_eq_zero_of_not_mem hbase
  unfold quickStage at hq
  by_cases h1 : artifact = "base"
  · rw [if_pos h1] at hq
    injection hq with hq; subst hq
    refine ⟨?_, ?_⟩
    · intro v hv
      rcases List.mem_append.mp hv with hv | hv
      · left
        simp only [List.count_append, hcnt_ba v hv]
        simp [List.count_cons]
        split <;> omega
      · rcases List.mem_singleton.mp hv with rfl
        left
        simp [List.count_append, hcnt_base, List.count_cons]
    · simp [List.count_append, hcnt_base, List.count_cons]
  · rw [if_neg h1] at hq
    by_cases h2 : artifact = "finalize"
    · rw [if_pos h2] at hq
      injection hq with hq; subst hq
      refine ⟨?_, ?_⟩
      · intro v hv
        left
        simp only [List.count_append]
        have := hcnt0 v
        simp
        omega
      · simp [List.count_append, hcnt_base]
    · rw [if_neg h2] at hq
      by_cases h3 : artifact = "live-iso"
      · rw [if_pos h3] at hq
        injection hq with hq; subst hq
        refine ⟨?_, ?_⟩
        · intro v hv
          left
          rcases List.mem_append.mp hv with hv | hv
          · simp only [List.count_append, hcnt_ba v hv]
            have hnd : (["qemu", "metal", "metal4k"] : List String).Nodup := by decide
            have := List.nodup_iff_count_le_one.mp hnd v
            omega
          · rcases List.mem_singleton.mp hv with rfl
            have hz : (["qemu", "metal", "metal4k"] : List String).count "live-iso" = 0 := by
              decide
            simp only [List.count_append, hz]
            have := hcnt0 "live-iso"
            omega
        · have hz : (["qemu", "metal", "metal4k"] : List String).count "base" = 0 := by decide
          simp [List.count_append, hcnt_base, hz]
      · rw [if_neg h3] at hq
        by_cases h4 : artifact = "metal"
        · rw [if_pos h4] at hq
          injection hq with hq; subst hq
          refine ⟨?_, ?_⟩
          · intro v hv
            left
            simp only [List.count_append]
            have := hcnt0 v
            simp
            omega
          · simp [List.count_append, hcnt_base]
        · rw [if_neg h4] at hq
          by_cases h5 : artifact = "metal4k"
          · rw [if_pos h5] at hq
            injection hq with hq; subst hq
            refine ⟨?_, ?_⟩
            · intro v hv
              left
              simp only [List.count_append]
              have := hcnt0 v
              simp
              omega
            · simp [List.count_append, hcnt_base]
          · rw [if_neg h5] at hq
            by_cases h6 : can artifact
            · rw [if_pos h6] at hq
              injection hq with hq; subst hq
              refine ⟨?_, ?_⟩
              · intro v hv
                rcases List.mem_append.mp hv with hv | hv
                · left
                  simp only [List.count_append, hcnt_ba v hv]
                  simp [List.count_cons]
                  split <;> omega
                · have hva : v = artifact := List.mem_singleton.mp hv
                  rw [hva]
                  by_cases hqe : artifact = "qemu"
                  · by_cases hm : "qemu" ∈ stage.requireArtifacts
                    · right
                      have hc1 : stage.requireArtifacts.count "qemu" = 1 := by
                        have := hcnt0 "qemu"
                        have := List.count_pos_iff.mpr hm
                        omega
                      rw [hqe]
                      refine ⟨?_, List.getLast?_concat _⟩
                      simp [List.count_append, hc1, List.count_cons]
                    · left
                      have hc0 : stage.requireArtifacts.count "qemu" = 0 :=
                        List.count_eq_zero_of_not_mem hm
                      rw [hqe]
                      simp [List.count_append, hc0, List.count_cons]
                  · left
                    have hz : (["qemu"] : List String).count artifact = 0 := by
                      simp [List.count_cons]
                      exact fun h => hqe h.symm
                    simp only [List.count_append, hz]
                    have := hcnt0 artifact
                    omega
              · have hz : (["qemu"] : List String).count "base" = 0 := by decide
                simp [List.count_append, hcnt_base, hz]
            · rw [if_neg h6] at hq
              cases hq

/-- The prune phase of `addShorthandToStage` (nested loop, then the special
`base`/`ostree`/`qemu` removal) leaves requires that avoid every build
artifact and never contain `base`. -/
theorem prune_result_inv (ra1 ba2 rr2 : List String)
    (hhyp : ∀ v ∈ ba2, HypV v ra1)
    (hbase1 : ra1.count "base" ≤ 1)
    (hrr2 : rr2 = (if (removeFirst (pruneLoop ba2 ra1).1 "base").2 then
        (removeFirst (removeFirst (removeFirst (pruneLoop ba2 ra1).1 "base").1
          "ostree").1 "qemu").1
      else (removeFirst (pruneLoop ba2 ra1).1 "base").1)) :
    (∀ a ∈ unique rr2, a ∉ ba2) ∧ "base" ∉ unique rr2 := by
  have hclear : ∀ v ∈ ba2, (pruneLoop ba2 ra1).1.count v = 0 := by
    intro v hv
    exact foldBas_clears ra1.length ba2 (ra1, []) (by simp) hhyp v hv
  have hsub : ∀ a ∈ rr2, a ∈ (pruneLoop ba2 ra1).1 := by
    intro a ha
    rw [hrr2] at ha
    by_cases hfound : (removeFirst (pruneLoop ba2 ra1).1 "base").2
    · rw [if_pos hfound] at ha
      rw [removeFirst_fst, removeFirst_fst, removeFirst_fst] at ha
      exact List.mem_of_mem_erase (List.mem_of_mem_erase (List.mem_of_mem_erase ha))
    · rw [if_neg hfound] at ha
      rw [removeFirst_fst] at ha
      exact List.mem_of_mem_erase ha
  constructor
  · intro a ha hab2
    have hmem : a ∈ (pruneLoop ba2 ra1).1 := hsub a ((mem_unique _ _).mp ha)
    have h0 := hclear a hab2
    have := List.count_pos_iff.mpr hmem
    omega
  · intro hmem
    have hmem2 : "base" ∈ rr2 := (mem_unique _ _).mp hmem
    have hb_rr_le : (pruneLoop ba2 ra1).1.count "base" ≤ ra1.count "base" := by
      unfold pruneLoop
      exact foldBas_count_le _ _ _ _
    have hnb : "base" ∉ (removeFirst (pruneLoop ba2 ra1).1 "base").1 := by
      rw [removeFirst_fst]
      by_cases hbm : "base" ∈ (pruneLoop ba2 ra1).1
      · have hc1 : (pruneLoop ba2 ra1).1.count "base" = 1 := by
          have := List.count_pos_iff.mpr hbm
          omega
        intro hmem'
        have hpos := List.count_pos_iff.mpr hmem'
        rw [List.count_erase_self, hc1] at hpos
        omega
      · rw [List.erase_of_not_mem hbm]; exact hbm
    rw [hrr2] at hmem2
    by_cases hfound : (removeFirst (pruneLoop ba2 ra1).1 "base").2
    · rw [if_pos hfound] at hmem2
      rw [removeFirst_fst, removeFirst_fst] at hmem2
      exact hnb (List.mem_of_mem_erase (List.mem_of_mem_erase hmem2))
    · rw [if_neg hfound] at hmem2
      exact hnb hmem2

/-- `addShorthandToStage` preserves the planner invariant, for any artifact
catalogue and any map iteration order. -/
theorem addShorthand_inv (ord : List Nat → List Nat) (can : String → Bool)
    (artifact : String) (stage stage' : Stage)
    (hinv : StageInv stage)
    (h : addShorthandToStage ord can artifact stage = some stage') :
    StageInv stage' := by
  obtain ⟨hbnd, hrnd, hdisj, hbase⟩ := hinv
  unfold addShorthandToStage at h
  cases hq : quickStage can artifact artifact with
  | none => rw [hq] at h; cases h
  | some working =>
    rw [hq] at h
    simp only at h
    cases hb : mkBuckets can artifact (stage.buildArtifacts ++ working.buildArtifacts) [] with
    | none => rw [hb] at h; cases h
    | some bs =>
      rw [hb] at h
      injection h with h
      subst h
      have hwf := window_facts can artifact working stage hq hrnd hdisj hbase
      have hmem_ba2 : ∀ v,
          v ∈ unique ((ord (bs.map Prod.fst)).foldl (fun acc k => acc ++ lookupD bs k) []) →
          v ∈ stage.buildArtifacts ++ working.buildArtifacts := by
        intro v hv
        rcases mem_foldl_lookupD bs _ [] v ((mem_unique _ _).mp hv) with h0 | ⟨k, hk⟩
        · cases h0
        · rcases mem_lookupD_mkBuckets can artifact _ [] bs hb k v hk with h1 | h1
          · exact h1
          · rw [lookupD] at h1; cases h1
      have hpr := prune_result_inv
        (stage.requireArtifacts ++ working.requireArtifacts)
        (unique ((ord (bs.map Prod.fst)).foldl (fun acc k => acc ++ lookupD bs k) []))
        _
        (fun v hv => hwf.1 v (hmem_ba2 v hv))
        hwf.2
        rfl
      exact ⟨nodup_unique _, nodup_unique _, hpr.1, hpr.2⟩

/-- Folding a whole `+`-group from the zero Stage establishes the
invariant. -/
theorem buildOne_inv (ord : List Nat → List Nat) (can : String → Bool) (g : String)
    (st' : Stage) (h : buildOneStage ord can g = some st') : StageInv st' := by
  have hstart : StageInv ({} : Stage) := by
    refine ⟨List.nodup_nil, List.nodup_nil, fun a ha => ?_, fun ha => ?_⟩ <;> cases ha
  suffices hgen : ∀ (parts : List String) (st : Stage), StageInv st →
      parts.foldlM (fun st k => addShorthandToStage ord can k st) st = some st' →
      StageInv st' by
    exact hgen _ _ hstart h
  intro parts
  induction parts with
  | nil =>
    intro st hst hfold
    rw [List.foldlM_nil] at hfold
    injection hfold with hfold
    rwa [← hfold]
  | cons p ps ih =>
    intro st hst hfold
    rw [List.foldlM_cons] at hfold
    cases ha : addShorthandToStage ord can p st with
    | none => rw [ha] at hfold; simp at hfold
    | some st1 =>
      rw [ha] at hfold
      simp only [Option.bind_eq_bind, Option.some_bind] at hfold
      exact ih st1 (addShorthand_inv ord can p st st1 hst ha) hfold

/-- Every generated stage comes from one of the groups. -/
theorem mapStages_mem (f : String → Option Stage) :
    ∀ (gs : List String) (sts : List Stage), mapStages f gs = some sts →
      ∀ st ∈ sts, ∃ g ∈ gs, f g = some st := by
  intro gs
  induction gs with
  | nil =>
    intro sts h st hst
    rw [mapStages] at h
    injection h with h
    rw [← h] at hst
    cases hst
  | cons g gs ih =>
    intro sts h st hst
    rw [mapStages] at h
    cases hg : f g with
    | none => rw [hg] at h; cases h
    | some st1 =>
      rw [hg] at h
      cases hrest : mapStages f gs with
      | none => rw [hrest] at h; cases h
      | some rest =>
        rw [hrest] at h
        injection h with h
        rw [← h] at hst
        rcases List.mem_cons.mp hst with rfl | hst
        · exact ⟨g, List.mem_cons_self _ _, hg⟩
        · obtain ⟨g', hg', hfg'⟩ := ih rest hrest st hst
          exact ⟨g', List.mem_cons_of_mem _ hg', hfg'⟩

/-- C1 amended: for every job spec, artifact catalogue, map iteration order
and list of shorthand groups, every Stage `GenerateStages` appends has
duplicate-free `buildArtifacts` and `requireArtifacts` disjoint from
`buildArtifacts`.  (The claim's third conjunct — `base` in the builds
forcing `ostree`/`qemu` out of the requires — is false on the code, see the
counterexample.) -/
theorem claim1_amended_invariants (ord : List Nat → List Nat) (can : String → Bool)
    (js js' : JobSpec) (groups : List String)
    (h : GenerateStages ord can js groups = some js') :
    ∀ st ∈ js'.stages, st ∈ js.stages ∨
      (st.buildArtifacts.Nodup ∧ ∀ a ∈ st.requireArtifacts, a ∉ st.buildArtifacts) := by
  unfold GenerateStages at h
  by_cases hempty : groups = []
  · rw [if_pos hempty] at h
    injection h with h
    subst h
    intro st hst
    left
    exact hst
  · rw [if_neg hempty] at h
    cases hm : mapStages (buildOneStage ord can) groups with
    | none => rw [hm] at h; cases h
    | some newStages =>
      rw [hm] at h
      injection h with h
      subst h
      intro st hst
      simp only at hst
      rcases List.mem_append.mp hst with h1 | h1
      · left; exact h1
      · right
        obtain ⟨g, _, hg⟩ := mapStages_mem (buildOneStage ord can) groups newStages hm st h1
        have hi := buildOne_inv ord can g st hg
        exact ⟨hi.1, hi.2.2.1⟩

/-- Witness for C1 amended: the planner output for `["base+live-iso"]`
satisfies the amended invariants. -/
theorem claim1_amended_invariants_witness :
    ∃ js', GenerateStages ordId (fun _ => false) {} ["base+live-iso"] = some js' ∧
      ∀ st ∈ js'.stages, st ∈ ({} : JobSpec).stages ∨
        (st.buildArtifacts.Nodup ∧ ∀ a ∈ st.requireArtifacts, a ∉ st.buildArtifacts) :=
  ⟨_, rfl, claim1_amended_invariants ordId (fun _ => false) {} _ ["base+live-iso"] rfl⟩
